import Mathlib

/-!
Verification of the event-bus core in src/lib/event_sys/async_bus.py.

The embedding models one EventSubscription as a record of its mutable
fields; the asyncio.Queue is a FIFO list (head = oldest) together with the
maxsize discipline of asyncio (maxsize 0 means unbounded, full means
0 < maxsize and qsize >= maxsize).  Suspension of a coroutine that can
never resume in a model without a concurrent consumer (the Block strategy
putting into a full queue) is rendered as the value none of an Option.
-/

namespace AsyncBus

/-- An event: the fields of StreamOutEvent / UserInputEvent that the bus
inspects.  Only session_id matters for routing inside a subscription; the
payload field keeps distinct events distinguishable. -/
structure Event where
  session_id : String
  payload : Nat
deriving Repr, DecidableEq

/-- BackpressureStrategy from async_bus.py: DROP_OLDEST, DROP_NEWEST, BLOCK. -/
inductive BackpressureStrategy where
  | dropOldest
  | dropNewest
  | block
deriving Repr, DecidableEq

/-- The mutable state of one EventSubscription: _cancelled, queue_size
(the maxsize passed to asyncio.Queue), backpressure_strategy, event_queue
(FIFO list, head = oldest), _dropped_events, _processed_events. -/
structure Subscription where
  cancelled : Bool
  queue_size : Nat
  backpressure_strategy : BackpressureStrategy
  event_queue : List Event
  dropped_events : Nat
  processed_events : Nat
deriving Repr, DecidableEq

/-- The state EventSubscription.__init__ builds: empty queue, counters at
zero, not cancelled. -/
def mkSubscription (queue_size : Nat) (strategy : BackpressureStrategy) : Subscription :=
  { cancelled := false
    queue_size := queue_size
    backpressure_strategy := strategy
    event_queue := []
    dropped_events := 0
    processed_events := 0 }

/-- asyncio.Queue.full(): true when maxsize is positive and qsize has
reached it; a queue with maxsize 0 is never full. -/
def queue_full (s : Subscription) : Bool :=
  0 < s.queue_size && s.queue_size ≤ s.event_queue.length

/-- EventSubscription.enqueue_event.  Returns none when the call suspends
forever (BLOCK strategy, full queue, no concurrent consumer); otherwise
some (returned boolean, state after the call).  The QueueFull exception of
put_nowait is the except branch incrementing _dropped_events and returning
False; the QueueEmpty exception in the DROP_OLDEST branch is suppressed. -/
def enqueue_event (s : Subscription) (e : Event) : Option (Bool × Subscription) :=
  if s.cancelled then
    some (false, s)
  else
    match s.backpressure_strategy with
    | .block =>
        if queue_full s then none
        else some (true, { s with event_queue := s.event_queue ++ [e] })
    | .dropNewest =>
        if queue_full s then
          some (false, { s with dropped_events := s.dropped_events + 1 })
        else
          some (true, { s with event_queue := s.event_queue ++ [e] })
    | .dropOldest =>
        let s1 :=
          if queue_full s then
            match s.event_queue with
            | [] => s
            | _ :: rest =>
                { s with event_queue := rest, dropped_events := s.dropped_events + 1 }
          else s
        if queue_full s1 then
          some (false, { s1 with dropped_events := s1.dropped_events + 1 })
        else
          some (true, { s1 with event_queue := s1.event_queue ++ [e] })

/-- EventSubscription.cancel: sets _cancelled once; a second call is a
no-op because of the guard. -/
def cancel (s : Subscription) : Subscription :=
  if s.cancelled then s else { s with cancelled := true }

/-- The is_cancelled property. -/
def is_cancelled (s : Subscription) : Bool :=
  s.cancelled

/-- One iteration of EventSubscription._process_events that found a queued
event: pops the oldest event and runs the handler; when the handler does
not raise (ok = true) _processed_events is incremented, when it raises the
exception is logged and the counter is left alone.  none when the loop
would not take an event (cancelled, or empty queue at this instant). -/
def process_one (ok : Bool) (s : Subscription) : Option (Event × Subscription) :=
  if s.cancelled then none
  else
    match s.event_queue with
    | [] => none
    | e :: rest =>
        if ok then
          some (e, { s with event_queue := rest,
                            processed_events := s.processed_events + 1 })
        else
          some (e, { s with event_queue := rest })

/-- Repeated process_one with an always-succeeding handler, driven by a
fuel argument; returns the events handed to the handler, in order, and the
final state. -/
def drain_loop : Nat → Subscription → List Event × Subscription
  | 0, s => ([], s)
  | fuel + 1, s =>
      match process_one true s with
      | none => ([], s)
      | some (e, s1) =>
          let r := drain_loop fuel s1
          (e :: r.1, r.2)

/-- The background loop consuming every currently queued event. -/
def drain (s : Subscription) : List Event × Subscription :=
  drain_loop s.event_queue.length s

/-- Successive enqueue_event calls, one per event, collecting the returned
booleans.  A call that suspends forever ends the sequence: no later call
begins. -/
def enqueue_all (s : Subscription) (es : List Event) : List Bool × Subscription :=
  match es with
  | [] => ([], s)
  | e :: rest =>
      match enqueue_event s e with
      | none => ([], s)
      | some (b, s1) =>
          let r := enqueue_all s1 rest
          (b :: r.1, r.2)

/-- An observable operation on one subscription: an enqueue_event call, one
loop iteration delivering a queued event (ok records whether the handler
returned without raising), or a cancel call. -/
inductive Op where
  | enq (e : Event)
  | deliver (ok : Bool)
  | cancelOp
deriving Repr, DecidableEq

/-- A subscription together with instrumentation counted along a run:
accepted counts enqueue_event calls that returned true, full_rejections
counts calls that returned false from the QueueFull path (the subscription
was not cancelled), failed_deliveries counts queued events handed to a
handler that raised. -/
structure Trace where
  sub : Subscription
  accepted : Nat
  full_rejections : Nat
  failed_deliveries : Nat
deriving Repr, DecidableEq

/-- A fresh trace around a subscription state. -/
def mkTrace (s : Subscription) : Trace :=
  { sub := s, accepted := 0, full_rejections := 0, failed_deliveries := 0 }

/-- One operation applied to a traced subscription.  A deliver on a
cancelled subscription or an empty queue is the loop not taking an event
(it exits, or times out and retries): no state change.  none only when the
operation suspends forever (Block enqueue into a full queue). -/
def step (t : Trace) : Op → Option Trace
  | .enq e =>
      match enqueue_event t.sub e with
      | none => none
      | some (true, s1) => some { t with sub := s1, accepted := t.accepted + 1 }
      | some (false, s1) =>
          if t.sub.cancelled then some { t with sub := s1 }
          else some { t with sub := s1, full_rejections := t.full_rejections + 1 }
  | .deliver ok =>
      if t.sub.cancelled then some t
      else
        match t.sub.event_queue with
        | [] => some t
        | _ :: rest =>
            let s1 := { t.sub with event_queue := rest }
            if ok then
              let s2 := { s1 with processed_events := s1.processed_events + 1 }
              some { t with sub := s2 }
            else
              let t1 := { t with sub := s1 }
              some { t1 with failed_deliveries := t1.failed_deliveries + 1 }
  | .cancelOp => some { t with sub := cancel t.sub }

/-- Runs a list of operations; none as soon as one suspends forever. -/
def run (t : Trace) : List Op → Option Trace
  | [] => some t
  | op :: ops =>
      match step t op with
      | none => none
      | some t1 => run t1 ops

/-- A SessionEventSubscription: the base subscription whose handler is the
session_handler closure, the bound session_id, and the list of events the
wrapped user handler was actually invoked on, in order. -/
structure SessionSub where
  sub : Subscription
  session_id : String
  handler_calls : List Event
deriving Repr, DecidableEq

/-- One _process_events iteration of a SessionEventSubscription that found
a queued event.  The session_handler closure catches every exception of
the user handler itself, so it always returns normally and the loop always
increments _processed_events; the user handler runs only when the session
ids match. -/
def process_one_session (s : SessionSub) : Option SessionSub :=
  if s.sub.cancelled then none
  else
    match s.sub.event_queue with
    | [] => none
    | e :: rest =>
        let sub0 := { s.sub with event_queue := rest }
        let sub1 := { sub0 with processed_events := sub0.processed_events + 1 }
        if e.session_id == s.session_id then
          some { s with sub := sub1, handler_calls := s.handler_calls ++ [e] }
        else
          some { s with sub := sub1 }

/-- A subscription created by EventBus.subscribe_once: the base
subscription whose handler is the once_wrapper closure, and the number of
times the supplied user handler has been invoked. -/
structure OnceState where
  sub : Subscription
  invocations : Nat
deriving Repr, DecidableEq

/-- Operations visible to a subscribe_once subscription: enqueue attempts
from emit, and loop iterations.  ok records whether the user handler
returned without raising on that delivery. -/
inductive OnceOp where
  | enq (e : Event)
  | deliver (ok : Bool)
deriving Repr, DecidableEq

/-- One operation on a subscribe_once subscription.  A delivery that finds
a queued event runs once_wrapper: the user handler is invoked exactly once
(raising or not), and the finally block calls cancel on the subscription;
when the handler raised, once_wrapper re-raises after the finally, the
loop catches it and does not increment _processed_events. -/
def once_step (t : OnceState) : OnceOp → Option OnceState
  | .enq e =>
      match enqueue_event t.sub e with
      | none => none
      | some (_, s1) => some { t with sub := s1 }
  | .deliver ok =>
      if t.sub.cancelled then some t
      else
        match t.sub.event_queue with
        | [] => some t
        | _ :: rest =>
            let s1 := cancel { t.sub with event_queue := rest }
            if ok then
              some { sub := { s1 with processed_events := s1.processed_events + 1 },
                     invocations := t.invocations + 1 }
            else
              some { sub := s1, invocations := t.invocations + 1 }

/-- Runs a list of operations on a subscribe_once subscription. -/
def run_once (t : OnceState) : List OnceOp → Option OnceState
  | [] => some t
  | op :: ops =>
      match once_step t op with
      | none => none
      | some t1 => run_once t1 ops

/-- One entry of the fan-out list EventBus.emit iterates over: the
subscription state, plus a fault flag saying whether this call of
enqueue_event raises an exception instead of returning (the failure mode
the emit try/except is there for). -/
structure FanEntry where
  sub : Subscription
  enq_raises : Bool
deriving Repr, DecidableEq

/-- What one EventBus.emit call did: the state of each fan-out
subscription when emit left it, whether enqueue_event was called on it,
and whether the emit coroutine itself ran to completion (it does even when
an exception was raised, because the except branch catches and logs;
completed is false only when emit is suspended forever inside an await). -/
structure EmitResult where
  subs : List Subscription
  attempted : List Bool
  completed : Bool
deriving Repr, DecidableEq

/-- EventBus.emit restricted to the subscription list registered for the
emitted event type.  The source awaits enqueue_event on each subscription
in turn inside one try block wrapped around the whole for loop: a
cancelled subscription is skipped, an exception aborts the loop and is
caught, and an enqueue_event that suspends forever suspends emit itself,
so the subscriptions after it are never reached. -/
def emit_go (e : Event) : List FanEntry → EmitResult
  | [] => { subs := [], attempted := [], completed := true }
  | entry :: rest =>
      if entry.sub.cancelled then
        let r := emit_go e rest
        { subs := entry.sub :: r.subs, attempted := false :: r.attempted,
          completed := r.completed }
      else if entry.enq_raises then
        { subs := entry.sub :: rest.map (·.sub),
          attempted := true :: rest.map (fun _ => false), completed := true }
      else
        match enqueue_event entry.sub e with
        | some (_, s1) =>
            let r := emit_go e rest
            { subs := s1 :: r.subs, attempted := true :: r.attempted,
              completed := r.completed }
        | none =>
            { subs := entry.sub :: rest.map (·.sub),
              attempted := true :: rest.map (fun _ => false), completed := false }

/-- A subscription as the EventBus stores it: the subscription state plus
whether _processing_task is currently set. -/
structure BusSub where
  sub : Subscription
  has_task : Bool
deriving Repr, DecidableEq

/-- EventSubscription.stop_processing: cancels and awaits the processing
task and clears the reference; the _cancelled flag is not touched. -/
def stop_processing (b : BusSub) : BusSub :=
  { b with has_task := false }

/-- EventSubscription.cancel seen at the bus level: sets _cancelled under
the idempotence guard.  The cleanup task it schedules when a processing
task exists runs stop_processing later; in clear_all the session
subscriptions have already been stopped by the first loop, so no task
exists there and nothing is scheduled. -/
def bus_cancel (b : BusSub) : BusSub :=
  if b.sub.cancelled then b else { b with sub := { b.sub with cancelled := true } }

/-- The EventBus registries: a store of subscription objects, the indices
the _subscriptions mapping holds (flattened over event types), and the
indices the _session_subscriptions mapping holds.  A session subscription
is registered in both, pointing at the same object. -/
structure EventBusState where
  store : List BusSub
  subs_registry : List Nat
  session_registry : List Nat
deriving Repr, DecidableEq

/-- Applies f to the element of l at index i, when it exists. -/
def modify_at (l : List BusSub) (i : Nat) (f : BusSub → BusSub) : List BusSub :=
  match l, i with
  | [], _ => []
  | b :: rest, 0 => f b :: rest
  | b :: rest, i + 1 => b :: modify_at rest i f

/-- EventBus.clear_all: first loop awaits stop_processing on every entry
of _subscriptions and clears that mapping; second loop calls cancel on
every entry of _session_subscriptions and clears that mapping. -/
def clear_all (bus : EventBusState) : EventBusState :=
  let store1 := bus.subs_registry.foldl (fun st i => modify_at st i stop_processing) bus.store
  let store2 := bus.session_registry.foldl (fun st i => modify_at st i bus_cancel) store1
  { store := store2, subs_registry := [], session_registry := [] }

/-- Concrete final trace of two DropNewest enqueues into capacity 1. -/
def c1t : Trace := ⟨⟨false, 1, .dropNewest, [⟨"s", 1⟩], 1, 0⟩, 1, 1, 0⟩

/-- Three concrete events. -/
def c2es : List Event := [⟨"s", 1⟩, ⟨"s", 2⟩, ⟨"s", 3⟩]

/-- A concrete full DropNewest subscription of capacity 1. -/
def c3s : Subscription := ⟨false, 1, .dropNewest, [⟨"s", 0⟩], 0, 0⟩

/-- Three concrete events. -/
def c3es : List Event := [⟨"a", 1⟩, ⟨"a", 2⟩, ⟨"a", 3⟩]

/-- A session subscription bound to session A whose queue holds one event
of session B. -/
def c6s : SessionSub := ⟨⟨false, 1000, .dropOldest, [⟨"B", 0⟩], 0, 0⟩, "A", []⟩

/-- A session subscription bound to A with nonzero counters and a queued
event of session B followed by one of session A. -/
def c6w : SessionSub := ⟨⟨false, 5, .dropOldest, [⟨"B", 1⟩, ⟨"A", 2⟩], 3, 4⟩, "A", [⟨"A", 9⟩]⟩

/-- A concrete operation list exercising enqueue, delivery and cancel. -/
def c7ops : List Op := [Op.enq ⟨"x", 1⟩, Op.deliver true, Op.cancelOp]

/-- Concrete operations for a subscribe_once subscription: two enqueues
then two loop iterations. -/
def c8ops : List OnceOp :=
  [OnceOp.enq ⟨"s", 1⟩, OnceOp.enq ⟨"s", 2⟩, OnceOp.deliver true, OnceOp.deliver true]

/-- The state those operations end in: one invocation, cancelled, the
second event still queued. -/
def c8t : OnceState := ⟨⟨true, 2, .dropOldest, [⟨"s", 2⟩], 0, 1⟩, 1⟩

/-- Concrete operations: two DropNewest enqueues. -/
def c10ops : List Op := [Op.enq ⟨"y", 1⟩, Op.enq ⟨"y", 2⟩]

/-- The trace those operations produce on a capacity 1 DropNewest
subscription. -/
def c10t : Trace := ⟨⟨false, 1, .dropNewest, [⟨"y", 1⟩], 1, 0⟩, 1, 1, 0⟩

/-- Two concrete events. -/
def c10es : List Event := [⟨"y", 1⟩, ⟨"y", 2⟩]

theorem cancel_cancelled (s : Subscription) : (cancel s).cancelled = true := by
  unfold cancel
  split
  · assumption
  · rfl

theorem cancel_of_cancelled {s : Subscription} (h : s.cancelled = true) : cancel s = s := by
  unfold cancel
  simp [h]

/-- What any completed enqueue_event call does to the fields of the
subscription: flags and strategy are untouched, the processed counter is
untouched, the queue length respects the capacity discipline, and either
the subscription was cancelled and nothing changed, or the call moved the
sum dropped_events + queue length up by exactly one. -/
theorem enqueue_event_some_spec {s s' : Subscription} {e : Event} {b : Bool}
    (h : enqueue_event s e = some (b, s')) :
    s'.cancelled = s.cancelled ∧ s'.queue_size = s.queue_size ∧
    s'.backpressure_strategy = s.backpressure_strategy ∧
    s'.processed_events = s.processed_events ∧
    (queue_full s = true → s'.event_queue.length ≤ s.event_queue.length) ∧
    (queue_full s = false → s'.event_queue.length ≤ s.event_queue.length + 1) ∧
    (s.cancelled = true ∧ b = false ∧ s' = s ∨
     s.cancelled = false ∧
       s'.dropped_events + s'.event_queue.length
         = s.dropped_events + s.event_queue.length + 1) := by
  unfold enqueue_event at h
  split at h
  · rename_i hc
    simp only [Option.some.injEq, Prod.mk.injEq] at h
    obtain ⟨hb, hs⟩ := h
    subst hs
    exact ⟨rfl, rfl, rfl, rfl, fun _ => le_refl _, fun _ => Nat.le_succ _,
      Or.inl ⟨hc, hb.symm, rfl⟩⟩
  · rename_i hc
    rw [Bool.not_eq_true] at hc
    split at h
    · rename_i hstrat
      split at h
      · rename_i hf
        exact absurd h (by simp)
      · rename_i hf
        rw [Bool.not_eq_true] at hf
        simp only [Option.some.injEq, Prod.mk.injEq] at h
        obtain ⟨_, hs⟩ := h
        subst hs
        refine ⟨rfl, rfl, rfl, rfl, fun habs => ?_, fun _ => ?_, Or.inr ⟨hc, ?_⟩⟩
        · rw [habs] at hf; exact absurd hf (by simp)
        · simp
        · simp; omega
    · rename_i hstrat
      split at h
      · rename_i hf
        simp only [Option.some.injEq, Prod.mk.injEq] at h
        obtain ⟨hb, hs⟩ := h
        subst hs
        exact ⟨rfl, rfl, rfl, rfl, fun _ => le_refl _, fun _ => Nat.le_succ _,
          Or.inr ⟨hc, by simp; omega⟩⟩
      · rename_i hf
        rw [Bool.not_eq_true] at hf
        simp only [Option.some.injEq, Prod.mk.injEq] at h
        obtain ⟨_, hs⟩ := h
        subst hs
        refine ⟨rfl, rfl, rfl, rfl, fun habs => ?_, fun _ => ?_, Or.inr ⟨hc, ?_⟩⟩
        · rw [habs] at hf; exact absurd hf (by simp)
        · simp
        · simp; omega
    · rename_i hstrat
      by_cases hf : queue_full s = true
      · cases hq : s.event_queue with
        | nil =>
          exfalso
          have hf1 := hf
          simp only [queue_full, hq, List.length_nil, Bool.and_eq_true,
            decide_eq_true_eq] at hf1
          omega
        | cons e0 rest =>
          rw [hq] at h
          simp only [hf, if_pos] at h
          split at h
          · rename_i hf1
            simp only [Option.some.injEq, Prod.mk.injEq] at h
            obtain ⟨hb, hs⟩ := h
            subst hs
            refine ⟨rfl, rfl, rfl, rfl, fun _ => ?_, fun habs => ?_, Or.inr ⟨hc, ?_⟩⟩
            · simp
            · rw [habs] at hf; exact absurd hf (by simp)
            · simp; omega
          · rename_i hf1
            simp only [Option.some.injEq, Prod.mk.injEq] at h
            obtain ⟨_, hs⟩ := h
            subst hs
            refine ⟨rfl, rfl, rfl, rfl, fun _ => ?_, fun habs => ?_, Or.inr ⟨hc, ?_⟩⟩
            · simp
            · rw [habs] at hf; exact absurd hf (by simp)
            · simp; omega
      · rw [Bool.not_eq_true] at hf
        simp only [hf, Bool.false_eq_true, if_false] at h
        simp only [Option.some.injEq, Prod.mk.injEq] at h
        obtain ⟨_, hs⟩ := h
        subst hs
        refine ⟨rfl, rfl, rfl, rfl, fun habs => ?_, fun _ => ?_, Or.inr ⟨hc, ?_⟩⟩
        · rw [habs] at hf; exact absurd hf (by simp)
        · simp
        · simp; omega

/-- One step moves the sum dropped + processed + queue size + failed
deliveries and the sum accepted + full rejections by the same amount. -/
theorem step_counts {t t' : Trace} {op : Op} (h : step t op = some t') :
    t'.sub.dropped_events + t'.sub.processed_events + t'.sub.event_queue.length
        + t'.failed_deliveries + (t.accepted + t.full_rejections)
      = t.sub.dropped_events + t.sub.processed_events + t.sub.event_queue.length
        + t.failed_deliveries + (t'.accepted + t'.full_rejections) := by
  cases op with
  | enq e =>
    simp only [step] at h
    split at h
    · exact absurd h (by simp)
    · rename_i s1 he
      have spec := enqueue_event_some_spec he
      simp only [Option.some.injEq] at h
      subst h
      rcases spec.2.2.2.2.2.2 with ⟨_, hb, _⟩ | ⟨_, hsum⟩
      · exact absurd hb (by simp)
      · have hp := spec.2.2.2.1
        dsimp only
        omega
    · rename_i s1 he
      have spec := enqueue_event_some_spec he
      split at h <;> simp only [Option.some.injEq] at h <;> subst h
      · rename_i hcan
        rcases spec.2.2.2.2.2.2 with ⟨_, _, hs⟩ | ⟨hcf, _⟩
        · rw [hs]
        · rw [hcan] at hcf; exact absurd hcf (by simp)
      · rename_i hcan
        rcases spec.2.2.2.2.2.2 with ⟨hct, _, _⟩ | ⟨_, hsum⟩
        · exact absurd hct hcan
        · have hp := spec.2.2.2.1
          dsimp only
          omega
  | deliver ok =>
    simp only [step] at h
    split at h
    · simp only [Option.some.injEq] at h; subst h; rfl
    · split at h
      · simp only [Option.some.injEq] at h; subst h; rfl
      · rename_i e0 rest heq
        cases ok <;> simp only [Bool.false_eq_true, if_false, if_pos,
          Option.some.injEq] at h <;> subst h <;> dsimp only <;>
          rw [heq] <;> simp only [List.length_cons] <;> omega
  | cancelOp =>
    simp only [step, Option.some.injEq] at h
    subst h
    simp only [cancel]
    split <;> rfl

/-- Running any list of operations keeps the two sums of step_counts in
lockstep. -/
theorem run_counts {ops : List Op} {t t' : Trace} (h : run t ops = some t') :
    t'.sub.dropped_events + t'.sub.processed_events + t'.sub.event_queue.length
        + t'.failed_deliveries + (t.accepted + t.full_rejections)
      = t.sub.dropped_events + t.sub.processed_events + t.sub.event_queue.length
        + t.failed_deliveries + (t'.accepted + t'.full_rejections) := by
  induction ops generalizing t with
  | nil =>
    simp only [run, Option.some.injEq] at h
    subst h
    rfl
  | cons op ops ih =>
    simp only [run] at h
    rcases hs : step t op with _ | t1 <;> rw [hs] at h
    · exact absurd h (by simp)
    · have h1 := step_counts hs
      have h2 := ih h
      omega

/-- Once the subscription inside a trace is cancelled, no operation
changes anything at all. -/
theorem step_of_cancelled {t : Trace} (hc : t.sub.cancelled = true) (op : Op) :
    step t op = some t := by
  cases op with
  | enq e =>
    simp only [step, enqueue_event, hc, if_pos]
  | deliver ok =>
    simp only [step, hc, if_pos]
  | cancelOp =>
    simp only [step, cancel_of_cancelled hc]

/-- Running any list of operations on a cancelled subscription is the
identity. -/
theorem run_of_cancelled {t : Trace} (hc : t.sub.cancelled = true) (ops : List Op) :
    run t ops = some t := by
  induction ops with
  | nil => rfl
  | cons op ops ih =>
    simp only [run, step_of_cancelled hc op]
    exact ih

/-- One step keeps the queue length within a positive capacity and keeps
the capacity itself. -/
theorem step_len_bound {t t' : Trace} {op : Op}
    (hpos : 0 < t.sub.queue_size)
    (hlen : t.sub.event_queue.length ≤ t.sub.queue_size)
    (h : step t op = some t') :
    t'.sub.queue_size = t.sub.queue_size ∧
    t'.sub.event_queue.length ≤ t'.sub.queue_size := by
  cases op with
  | enq e =>
    have main : ∀ s1 : Subscription, enqueue_event t.sub e = some (true, s1) ∨
        (∃ b, enqueue_event t.sub e = some (b, s1)) → t'.sub = s1 →
        t'.sub.queue_size = t.sub.queue_size ∧
        t'.sub.event_queue.length ≤ t'.sub.queue_size := by
      intro s1 he hs1
      have spec : s1.queue_size = t.sub.queue_size ∧
          (queue_full t.sub = true → s1.event_queue.length ≤ t.sub.event_queue.length) ∧
          (queue_full t.sub = false → s1.event_queue.length ≤ t.sub.event_queue.length + 1) := by
        rcases he with he | ⟨b, he⟩
        · have spec := enqueue_event_some_spec he
          exact ⟨spec.2.1, spec.2.2.2.2.1, spec.2.2.2.2.2.1⟩
        · have spec := enqueue_event_some_spec he
          exact ⟨spec.2.1, spec.2.2.2.2.1, spec.2.2.2.2.2.1⟩
      rw [hs1]
      refine ⟨spec.1, ?_⟩
      rw [spec.1]
      by_cases hf : queue_full t.sub = true
      · have := spec.2.1 hf
        omega
      · rw [Bool.not_eq_true] at hf
        have hlt := spec.2.2 hf
        have hnot : ¬(0 < t.sub.queue_size ∧ t.sub.queue_size ≤ t.sub.event_queue.length) := by
          intro habs
          have : queue_full t.sub = true := by
            simp only [queue_full, Bool.and_eq_true, decide_eq_true_eq]
            omega
          rw [this] at hf
          exact absurd hf (by simp)
        omega
    simp only [step] at h
    split at h
    · exact absurd h (by simp)
    · rename_i s1 he
      simp only [Option.some.injEq] at h
      subst h
      exact main s1 (Or.inl he) rfl
    · rename_i s1 he
      split at h <;> simp only [Option.some.injEq] at h <;> subst h
      · exact main s1 (Or.inr ⟨false, he⟩) rfl
      · exact main s1 (Or.inr ⟨false, he⟩) rfl
  | deliver ok =>
    simp only [step] at h
    split at h
    · simp only [Option.some.injEq] at h; subst h; exact ⟨rfl, hlen⟩
    · split at h
      · simp only [Option.some.injEq] at h; subst h; exact ⟨rfl, hlen⟩
      · rename_i e0 rest heq
        cases ok <;> simp only [Bool.false_eq_true, if_false, if_pos,
          Option.some.injEq] at h <;> subst h <;> dsimp only <;>
          refine ⟨rfl, ?_⟩ <;> rw [heq] at hlen <;>
          simp only [List.length_cons] at hlen <;> omega
  | cancelOp =>
    simp only [step, Option.some.injEq] at h
    subst h
    simp only [cancel]
    split <;> exact ⟨rfl, hlen⟩

/-- A run from a state respecting a positive capacity never exceeds it. -/
theorem run_len_bound {ops : List Op} {t t' : Trace}
    (hpos : 0 < t.sub.queue_size)
    (hlen : t.sub.event_queue.length ≤ t.sub.queue_size)
    (h : run t ops = some t') :
    t'.sub.event_queue.length ≤ t'.sub.queue_size ∧
    t'.sub.queue_size = t.sub.queue_size := by
  induction ops generalizing t with
  | nil =>
    simp only [run, Option.some.injEq] at h
    subst h
    exact ⟨hlen, rfl⟩
  | cons op ops ih =>
    simp only [run] at h
    rcases hs : step t op with _ | t1 <;> rw [hs] at h
    · exact absurd h (by simp)
    · obtain ⟨hq, hl⟩ := step_len_bound hpos hlen hs
      have := ih (t := t1) (by omega) hl h
      omega

/-- Successive DropOldest enqueues from a within-capacity state: every
call returns true, the queue ends as the suffix holding the newest
min(q + n, C) admitted elements, and dropped_events grows by exactly the
overflow q + n - C. -/
theorem enqueue_all_dropOldest (es : List Event) (s : Subscription)
    (hs : s.backpressure_strategy = .dropOldest) (hc : s.cancelled = false)
    (hpos : 1 ≤ s.queue_size) (hlen : s.event_queue.length ≤ s.queue_size) :
    enqueue_all s es
      = (List.replicate es.length true,
         ⟨false, s.queue_size, .dropOldest,
          (s.event_queue ++ es).drop (s.event_queue.length + es.length - s.queue_size),
          s.dropped_events + (s.event_queue.length + es.length - s.queue_size),
          s.processed_events⟩) := by
  induction es generalizing s with
  | nil =>
    obtain ⟨c, qs, st, q, d, p⟩ := s
    dsimp only at hs hc hlen ⊢
    subst hs
    subst hc
    simp only [enqueue_all, List.length_nil, List.replicate_zero, List.append_nil]
    have hz : q.length + 0 - qs = 0 := by omega
    rw [hz]
    simp only [List.drop_zero, Nat.add_zero]
  | cons e rest ih =>
    obtain ⟨c, qs, st, q, d, p⟩ := s
    dsimp only at hs hc hpos hlen ⊢
    subst hs
    subst hc
    by_cases hf : queue_full ⟨false, qs, .dropOldest, q, d, p⟩ = true
    · have hfull : q.length = qs := by
        simp only [queue_full, Bool.and_eq_true, decide_eq_true_eq] at hf
        omega
      cases q with
      | nil => simp at hfull; omega
      | cons e0 q0 =>
        simp only [List.length_cons] at hfull hlen
        have hnf : queue_full ⟨false, qs, .dropOldest, q0, d + 1, p⟩ = false := by
          simp only [queue_full, Bool.and_eq_false_iff, decide_eq_false_iff_not]
          right
          dsimp only
          omega
        simp only [enqueue_all, enqueue_event, hf, hnf, Bool.false_eq_true,
          if_false, if_true, if_pos, reduceCtorEq, reduceIte]
        have ihs := ih ⟨false, qs, .dropOldest, q0 ++ [e], d + 1, p⟩ rfl rfl hpos
          (by
            dsimp only
            simp only [List.length_append, List.length_cons, List.length_nil]
            omega)
        rw [ihs]
        dsimp only
        simp only [List.length_append, List.length_cons, List.length_nil]
        have idx1 : q0.length + 1 + rest.length - qs = rest.length := by omega
        have idx2 : q0.length + 1 + (rest.length + 1) - qs = rest.length + 1 := by omega
        rw [idx1, idx2]
        have hdrop : ((q0 ++ [e]) ++ rest).drop rest.length
            = ((e0 :: q0) ++ e :: rest).drop (rest.length + 1) := by
          simp
        rw [hdrop]
        have hdropn : d + 1 + rest.length = d + (rest.length + 1) := by omega
        rw [hdropn]
        simp [List.replicate_succ]
    · rw [Bool.not_eq_true] at hf
      have hroom : q.length < qs := by
        simp only [queue_full, Bool.and_eq_false_iff, decide_eq_false_iff_not] at hf
        omega
      simp only [enqueue_all, enqueue_event, hf, Bool.false_eq_true, if_false,
        reduceCtorEq, reduceIte]
      have ihs := ih ⟨false, qs, .dropOldest, q ++ [e], d, p⟩ rfl rfl hpos
        (by
          dsimp only
          simp only [List.length_append, List.length_cons, List.length_nil]
          omega)
      rw [ihs]
      dsimp only
      simp only [List.length_append, List.length_cons, List.length_nil]
      have idx : q.length + 1 + rest.length = q.length + (rest.length + 1) := by omega
      rw [idx]
      have hl : (q ++ [e]) ++ rest = q ++ e :: rest := by
        simp
      rw [hl]
      simp [List.replicate_succ]

/-- Successive DropNewest enqueues from a within-capacity state: the calls
fill the free room with true results, every further call returns false and
counts one drop, and the queue keeps the admitted prefix in order. -/
theorem enqueue_all_dropNewest (es : List Event) (s : Subscription)
    (hs : s.backpressure_strategy = .dropNewest) (hc : s.cancelled = false)
    (hpos : 1 ≤ s.queue_size) (hlen : s.event_queue.length ≤ s.queue_size) :
    enqueue_all s es
      = (List.replicate (min es.length (s.queue_size - s.event_queue.length)) true
           ++ List.replicate (es.length - (s.queue_size - s.event_queue.length)) false,
         ⟨false, s.queue_size, .dropNewest,
          s.event_queue ++ es.take (s.queue_size - s.event_queue.length),
          s.dropped_events + (es.length - (s.queue_size - s.event_queue.length)),
          s.processed_events⟩) := by
  induction es generalizing s with
  | nil =>
    obtain ⟨c, qs, st, q, d, p⟩ := s
    dsimp only at hs hc hlen ⊢
    subst hs
    subst hc
    simp [enqueue_all]
  | cons e rest ih =>
    obtain ⟨c, qs, st, q, d, p⟩ := s
    dsimp only at hs hc hpos hlen ⊢
    subst hs
    subst hc
    by_cases hf : queue_full ⟨false, qs, .dropNewest, q, d, p⟩ = true
    · have hfull : q.length = qs := by
        simp only [queue_full, Bool.and_eq_true, decide_eq_true_eq] at hf
        omega
      have hroom : qs - q.length = 0 := by omega
      simp only [enqueue_all, enqueue_event, hf, Bool.false_eq_true, if_false,
        reduceCtorEq, reduceIte, if_true, if_pos]
      have ihs := ih ⟨false, qs, .dropNewest, q, d + 1, p⟩ rfl rfl hpos (by dsimp only; omega)
      rw [ihs]
      dsimp only
      rw [hroom]
      simp only [Nat.min_zero, List.replicate_zero, List.nil_append, Nat.sub_zero,
        List.take_zero, List.append_nil, List.length_cons]
      have hd : d + 1 + rest.length = d + (rest.length + 1) := by omega
      rw [hd]
      simp [List.replicate_succ]
    · rw [Bool.not_eq_true] at hf
      have hroom : q.length < qs := by
        simp only [queue_full, Bool.and_eq_false_iff, decide_eq_false_iff_not] at hf
        omega
      simp only [enqueue_all, enqueue_event, hf, Bool.false_eq_true, if_false,
        reduceCtorEq, reduceIte]
      have ihs := ih ⟨false, qs, .dropNewest, q ++ [e], d, p⟩ rfl rfl hpos
        (by
          dsimp only
          simp only [List.length_append, List.length_cons, List.length_nil]
          omega)
      rw [ihs]
      dsimp only
      simp only [List.length_append, List.length_cons, List.length_nil]
      have hk : qs - q.length = (qs - (q.length + 1)) + 1 := by omega
      simp only [Prod.mk.injEq]
      constructor
      · rw [hk]
        have hmin : min (rest.length + 1) (qs - (q.length + 1) + 1)
            = min rest.length (qs - (q.length + 1)) + 1 := by omega
        rw [hmin]
        have hsub : rest.length + 1 - (qs - (q.length + 1) + 1)
            = rest.length - (qs - (q.length + 1)) := by omega
        rw [hsub]
        simp [List.replicate_succ]
      · rw [hk]
        have hsub : rest.length + 1 - (qs - (q.length + 1) + 1)
            = rest.length - (qs - (q.length + 1)) := by omega
        rw [hsub]
        simp only [List.take_succ_cons, List.append_assoc, List.singleton_append]

/-- Draining the queue with an always-succeeding handler hands every
queued event to the handler in FIFO order, empties the queue, and adds
the queue length to processed_events. -/
theorem drain_spec (s : Subscription) (hc : s.cancelled = false) :
    drain s = (s.event_queue,
      ⟨false, s.queue_size, s.backpressure_strategy, [],
       s.dropped_events, s.processed_events + s.event_queue.length⟩) := by
  obtain ⟨c, qs, st, q, d, p⟩ := s
  dsimp only at hc ⊢
  subst hc
  unfold drain
  dsimp only
  induction q generalizing p with
  | nil =>
    simp [drain_loop, process_one]
  | cons e0 q0 ih =>
    simp only [List.length_cons, drain_loop, process_one, Bool.false_eq_true,
      if_false, reduceCtorEq, reduceIte]
    rw [ih (p + 1)]
    dsimp only
    have hp : p + 1 + q0.length = p + (q0.length + 1) := by omega
    rw [hp]

/-- With capacity zero the asyncio queue is unbounded: every strategy
admits every event, returns true, and never counts a drop. -/
theorem enqueue_all_zero (es : List Event) (s : Subscription)
    (hq : s.queue_size = 0) (hc : s.cancelled = false) :
    enqueue_all s es
      = (List.replicate es.length true,
         ⟨false, 0, s.backpressure_strategy, s.event_queue ++ es,
          s.dropped_events, s.processed_events⟩) := by
  induction es generalizing s with
  | nil =>
    obtain ⟨c, qs, st, q, d, p⟩ := s
    dsimp only at hq hc ⊢
    subst hq
    subst hc
    simp [enqueue_all]
  | cons e rest ih =>
    obtain ⟨c, qs, st, q, d, p⟩ := s
    dsimp only at hq hc ⊢
    subst hq
    subst hc
    have hf : queue_full ⟨false, 0, st, q, d, p⟩ = false := by
      simp [queue_full]
    cases st <;>
      simp only [enqueue_all, enqueue_event, hf, Bool.false_eq_true, if_false,
        reduceCtorEq, reduceIte] <;>
      rw [ih ⟨false, 0, _, q ++ [e], d, p⟩ rfl rfl] <;>
      simp [List.replicate_succ]

/-- One step of a subscribe_once subscription keeps the guard: the user
handler has run at most once, and as soon as it has run once the
subscription is cancelled. -/
theorem once_step_inv {t t' : OnceState} {op : OnceOp}
    (h : once_step t op = some t')
    (hinv : t.invocations ≤ 1 ∧ (t.sub.cancelled = false → t.invocations = 0)) :
    t'.invocations ≤ 1 ∧ (t'.sub.cancelled = false → t'.invocations = 0) := by
  cases op with
  | enq e =>
    simp only [once_step] at h
    split at h
    · exact absurd h (by simp)
    · rename_i b s1 he
      have spec := enqueue_event_some_spec he
      simp only [Option.some.injEq] at h
      subst h
      dsimp only
      refine ⟨hinv.1, fun hcf => ?_⟩
      rw [spec.1] at hcf
      exact hinv.2 hcf
  | deliver ok =>
    simp only [once_step] at h
    split at h
    · simp only [Option.some.injEq] at h; subst h; exact hinv
    · rename_i hcan
      split at h
      · simp only [Option.some.injEq] at h; subst h; exact hinv
      · rename_i e0 rest heq
        rw [Bool.not_eq_true] at hcan
        have hz := hinv.2 hcan
        cases ok <;> simp only [Bool.false_eq_true, if_false, if_pos,
          Option.some.injEq, reduceIte] at h <;> subst h <;> dsimp only <;>
          rw [hz] <;>
          exact ⟨le_refl 1, fun hcf => absurd hcf (by simp [cancel_cancelled])⟩

/-- Running any operation list from a state satisfying the
subscribe_once guard ends in a state satisfying it. -/
theorem run_once_inv {ops : List OnceOp} {t t' : OnceState}
    (h : run_once t ops = some t')
    (hinv : t.invocations ≤ 1 ∧ (t.sub.cancelled = false → t.invocations = 0)) :
    t'.invocations ≤ 1 ∧ (t'.sub.cancelled = false → t'.invocations = 0) := by
  induction ops generalizing t with
  | nil =>
    simp only [run_once, Option.some.injEq] at h
    subst h
    exact hinv
  | cons op ops ih =>
    simp only [run_once] at h
    rcases hs : once_step t op with _ | t1 <;> rw [hs] at h
    · exact absurd h (by simp)
    · exact ih h (once_step_inv hs hinv)

/-- C1 counterexample: on a capacity 1 DropNewest subscription, enqueuing
two events accepts one and rejects one, and the rejection increments
dropped_events, so dropped + processed + queue size is 2 while only 1
event was ever accepted into the queue - the claimed invariant fails and
a DropNewest admission rejection does change dropped_count. -/
theorem c1_counterexample :
    (run (mkTrace (mkSubscription 1 .dropNewest))
        [Op.enq ⟨"s", 1⟩, Op.enq ⟨"s", 2⟩]).map
      (fun t => (t.sub.dropped_events + t.sub.processed_events
        + t.sub.event_queue.length, t.accepted))
      = some (2, 1) ∧ (2 : Nat) ≠ 1 := by
  constructor
  · rfl
  · decide

/-- C1 (amended): for every subscription started with zero counters and
an empty queue, at every observation point dropped_count + processed_count
+ queue size + handler-failure deliveries equals the number of events ever
accepted at admission time plus the number of full-queue rejections that
incremented dropped_count (DropNewest rejections); a rejection because the
subscription is cancelled changes nothing. -/
theorem c1_counting_invariant (s0 : Subscription) (ops : List Op) (t : Trace)
    (hq : s0.event_queue = []) (hd : s0.dropped_events = 0)
    (hp : s0.processed_events = 0)
    (h : run (mkTrace s0) ops = some t) :
    t.sub.dropped_events + t.sub.processed_events + t.sub.event_queue.length
        + t.failed_deliveries
      = t.accepted + t.full_rejections := by
  have hrc := run_counts h
  dsimp only [mkTrace] at hrc
  rw [hq, hd, hp] at hrc
  simp only [List.length_nil] at hrc
  omega

/-- C1 witness: the amended invariant applied to two DropNewest enqueues
into capacity 1. -/
theorem c1_counting_invariant_witness :
    c1t.sub.dropped_events + c1t.sub.processed_events + c1t.sub.event_queue.length
        + c1t.failed_deliveries
      = c1t.accepted + c1t.full_rejections :=
  c1_counting_invariant (mkSubscription 1 .dropNewest)
    [Op.enq ⟨"s", 1⟩, Op.enq ⟨"s", 2⟩] c1t rfl rfl rfl (by decide)

/-- C2: on a non-cancelled DropOldest subscription of capacity C at least
1 starting from an empty queue with no draining, n successive enqueues all
return true, the queue ends holding the newest min(n, C) events in FIFO
order (each call made while full evicted exactly the oldest element), and
dropped_events ends at n - C truncated at zero. -/
theorem c2_dropOldest_behavior (C : Nat) (es : List Event) (hC : 1 ≤ C) :
    (enqueue_all (mkSubscription C .dropOldest) es).1 = List.replicate es.length true ∧
    (enqueue_all (mkSubscription C .dropOldest) es).2.event_queue
      = es.drop (es.length - C) ∧
    (enqueue_all (mkSubscription C .dropOldest) es).2.event_queue.length
      = min es.length C ∧
    (enqueue_all (mkSubscription C .dropOldest) es).2.dropped_events = es.length - C := by
  have h := enqueue_all_dropOldest es (mkSubscription C .dropOldest) rfl rfl hC
    (by simp [mkSubscription])
  have hsnd : (enqueue_all (mkSubscription C .dropOldest) es).2
      = ⟨false, C, .dropOldest, es.drop (es.length - C), es.length - C, 0⟩ := by
    rw [h]
    simp [mkSubscription]
  refine ⟨?_, ?_, ?_, ?_⟩
  · rw [h]
  · rw [hsnd]
  · rw [hsnd]
    dsimp only
    rw [List.length_drop]
    omega
  · rw [hsnd]

/-- C2 witness: the DropOldest behavior at capacity 2 on three events. -/
theorem c2_dropOldest_behavior_witness :
    (enqueue_all (mkSubscription 2 .dropOldest) c2es).1 = List.replicate c2es.length true ∧
    (enqueue_all (mkSubscription 2 .dropOldest) c2es).2.event_queue
      = c2es.drop (c2es.length - 2) ∧
    (enqueue_all (mkSubscription 2 .dropOldest) c2es).2.event_queue.length
      = min c2es.length 2 ∧
    (enqueue_all (mkSubscription 2 .dropOldest) c2es).2.dropped_events = c2es.length - 2 :=
  c2_dropOldest_behavior 2 c2es (by decide)

/-- C3: on a non-cancelled full DropNewest subscription an enqueue returns
false and only increments dropped_events by one, leaving the queue and the
other fields alone; and from an empty DropNewest subscription of capacity
C at least 1 the first min(n, C) enqueues succeed, the rest return false,
the queue holds the first C admitted events in FIFO order and draining
delivers exactly those events in that order. -/
theorem c3_dropNewest_behavior (C : Nat) (es : List Event) (s : Subscription)
    (e : Event) (hC : 1 ≤ C) (hs : s.backpressure_strategy = .dropNewest)
    (hc : s.cancelled = false) (hfull : queue_full s = true) :
    enqueue_event s e = some (false, { s with dropped_events := s.dropped_events + 1 }) ∧
    (enqueue_all (mkSubscription C .dropNewest) es).1
      = List.replicate (min es.length C) true ++ List.replicate (es.length - C) false ∧
    (enqueue_all (mkSubscription C .dropNewest) es).2.event_queue = es.take C ∧
    (enqueue_all (mkSubscription C .dropNewest) es).2.dropped_events = es.length - C ∧
    (drain (enqueue_all (mkSubscription C .dropNewest) es).2).1 = es.take C ∧
    (drain (enqueue_all (mkSubscription C .dropNewest) es).2).2.processed_events
      = min es.length C := by
  have h1 : enqueue_event s e
      = some (false, { s with dropped_events := s.dropped_events + 1 }) := by
    obtain ⟨c, qs, st, q, d, p⟩ := s
    dsimp only at hs hc hfull ⊢
    subst hs
    subst hc
    simp only [enqueue_event, hfull, Bool.false_eq_true, if_false,
      reduceCtorEq, reduceIte, if_pos, if_true]
  have h2 := enqueue_all_dropNewest es (mkSubscription C .dropNewest) rfl rfl hC
    (by simp [mkSubscription])
  have hfst : (enqueue_all (mkSubscription C .dropNewest) es).1
      = List.replicate (min es.length C) true ++ List.replicate (es.length - C) false := by
    rw [h2]
    simp [mkSubscription]
  have hsnd : (enqueue_all (mkSubscription C .dropNewest) es).2
      = ⟨false, C, .dropNewest, es.take C, es.length - C, 0⟩ := by
    rw [h2]
    simp [mkSubscription]
  have h3 := drain_spec ⟨false, C, .dropNewest, es.take C, es.length - C, 0⟩ rfl
  refine ⟨h1, hfst, ?_, ?_, ?_, ?_⟩
  · rw [hsnd]
  · rw [hsnd]
  · rw [hsnd, h3]
  · rw [hsnd, h3]
    dsimp only
    rw [List.length_take]
    omega

/-- C3 witness: the DropNewest behavior at capacity 2 on three events,
with the full-queue rejection checked on a full capacity 1 subscription. -/
theorem c3_dropNewest_behavior_witness :
    enqueue_event c3s ⟨"s", 7⟩
      = some (false, { c3s with dropped_events := c3s.dropped_events + 1 }) ∧
    (enqueue_all (mkSubscription 2 .dropNewest) c3es).1
      = List.replicate (min c3es.length 2) true ++ List.replicate (c3es.length - 2) false ∧
    (enqueue_all (mkSubscription 2 .dropNewest) c3es).2.event_queue = c3es.take 2 ∧
    (enqueue_all (mkSubscription 2 .dropNewest) c3es).2.dropped_events = c3es.length - 2 ∧
    (drain (enqueue_all (mkSubscription 2 .dropNewest) c3es).2).1 = c3es.take 2 ∧
    (drain (enqueue_all (mkSubscription 2 .dropNewest) c3es).2).2.processed_events
      = min c3es.length 2 :=
  c3_dropNewest_behavior 2 c3es c3s ⟨"s", 7⟩ (by decide) rfl rfl (by decide)

/-- C4: the emit loop awaits each enqueue before starting the next one.
With two non-cancelled subscriptions registered for the event type, the
first under the Block strategy with a full queue that is never drained,
emit suspends inside the first await forever: the second subscription
never has enqueue_event attempted on it and never receives the event,
refuting the claim that the attempts are issued concurrently so one
Blocked subscriber cannot delay the others. -/
theorem c4_sequential_fanout :
    emit_go ⟨"s", 9⟩
        [⟨⟨false, 1, .block, [⟨"s", 0⟩], 0, 0⟩, false⟩,
         ⟨mkSubscription 1 .dropOldest, false⟩]
      = ⟨[⟨false, 1, .block, [⟨"s", 0⟩], 0, 0⟩, mkSubscription 1 .dropOldest],
         [true, false], false⟩ := by
  decide

/-- C5: the try block of emit wraps the whole fan-out loop, so an
exception raised in the first subscription's enqueue path is caught (emit
completes and nothing reaches the publisher) but the loop is aborted: the
second subscription never has enqueue_event attempted and never receives
the event, refuting the claim that the remaining subscriptions still have
enqueue attempted. -/
theorem c5_exception_aborts_fanout :
    emit_go ⟨"s", 9⟩
        [⟨mkSubscription 1 .dropOldest, true⟩,
         ⟨mkSubscription 1 .dropOldest, false⟩]
      = ⟨[mkSubscription 1 .dropOldest, mkSubscription 1 .dropOldest],
         [true, false], true⟩ := by
  decide

/-- C6 counterexample: a session subscription bound to A delivering a
queued event of session B does not invoke the wrapped user handler and
does not change dropped_events, but processed_events rises from 0 to 1,
refuting the claim that neither counter changes. -/
theorem c6_counterexample :
    (process_one_session c6s).map
        (fun s => (s.handler_calls, s.sub.dropped_events, s.sub.processed_events))
      = some ([], 0, 1) ∧ c6s.sub.processed_events = 0 := by
  constructor
  · rfl
  · rfl

/-- C6 (amended): delivering a queued event whose session_id differs from
the bound session never invokes the wrapped user handler and leaves
dropped_events unchanged, but processed_events is still incremented by
one, because the filtering closure returns normally and the consumption
loop counts every successful handler return. -/
theorem c6_filtered_delivery (s : SessionSub) (e : Event) (rest : List Event)
    (hc : s.sub.cancelled = false) (hq : s.sub.event_queue = e :: rest)
    (hne : e.session_id ≠ s.session_id) :
    process_one_session s
      = some ⟨⟨false, s.sub.queue_size, s.sub.backpressure_strategy, rest,
               s.sub.dropped_events, s.sub.processed_events + 1⟩,
              s.session_id, s.handler_calls⟩ := by
  obtain ⟨⟨c, qs, st, q, d, p⟩, sid, calls⟩ := s
  dsimp only at hc hq hne ⊢
  subst hc
  subst hq
  have hbeq : (e.session_id == sid) = false := by
    rw [beq_eq_false_iff_ne]
    exact hne
  simp only [process_one_session, Bool.false_eq_true, if_false, reduceCtorEq,
    reduceIte, hbeq]

/-- C6 witness: the amended delivery rule on a concrete session
subscription bound to A with a queued session B event. -/
theorem c6_filtered_delivery_witness :
    process_one_session c6w
      = some ⟨⟨false, c6w.sub.queue_size, c6w.sub.backpressure_strategy, [⟨"A", 2⟩],
               c6w.sub.dropped_events, c6w.sub.processed_events + 1⟩,
              c6w.session_id, c6w.handler_calls⟩ :=
  c6_filtered_delivery c6w ⟨"B", 1⟩ [⟨"A", 2⟩] rfl rfl (by decide)

/-- C7: after cancel the subscription reads is_cancelled true immediately,
every subsequent enqueue_event returns false and leaves the state exactly
as it was, cancelling again changes nothing, and in fact no operation
sequence whatsoever changes a cancelled subscription or its counters. -/
theorem c7_cancel_semantics (s : Subscription) (e : Event) (ops : List Op)
    (t : Trace) (h : run (mkTrace (cancel s)) ops = some t) :
    is_cancelled (cancel s) = true ∧
    enqueue_event (cancel s) e = some (false, cancel s) ∧
    cancel (cancel s) = cancel s ∧
    t = mkTrace (cancel s) := by
  have hc := cancel_cancelled s
  refine ⟨hc, ?_, cancel_of_cancelled hc, ?_⟩
  · simp only [enqueue_event, hc, if_pos, if_true]
  · have hid := run_of_cancelled
      (show (mkTrace (cancel s)).sub.cancelled = true from hc) ops
    rw [hid] at h
    simp only [Option.some.injEq] at h
    exact h.symm

/-- C7 witness: the cancel semantics on a concrete subscription with a
concrete operation list. -/
theorem c7_cancel_semantics_witness :
    is_cancelled (cancel (mkSubscription 3 .block)) = true ∧
    enqueue_event (cancel (mkSubscription 3 .block)) ⟨"x", 0⟩
      = some (false, cancel (mkSubscription 3 .block)) ∧
    cancel (cancel (mkSubscription 3 .block)) = cancel (mkSubscription 3 .block) ∧
    mkTrace (cancel (mkSubscription 3 .block)) = mkTrace (cancel (mkSubscription 3 .block)) :=
  c7_cancel_semantics (mkSubscription 3 .block) ⟨"x", 0⟩ c7ops
    (mkTrace (cancel (mkSubscription 3 .block))) (by decide)

/-- C8: on a subscription created by subscribe_once, whatever mix of
enqueues and loop iterations happens, the user handler runs at most once,
and from the moment it has run once the subscription is cancelled -
including when the invocation raised, because the cancel sits in the
finally of the wrapper. -/
theorem c8_once_at_most_one (C : Nat) (strat : BackpressureStrategy)
    (ops : List OnceOp) (t : OnceState)
    (h : run_once ⟨mkSubscription C strat, 0⟩ ops = some t) :
    t.invocations ≤ 1 ∧ (1 ≤ t.invocations → t.sub.cancelled = true) := by
  have hinv := run_once_inv h ⟨Nat.le_of_eq rfl |>.trans (Nat.le_succ 0), fun _ => rfl⟩
  refine ⟨hinv.1, fun h1 => ?_⟩
  cases hcc : t.sub.cancelled
  · have := hinv.2 hcc
    omega
  · rfl

/-- C8 witness: two enqueues and two deliveries on a subscribe_once
subscription of capacity 2 end with exactly one invocation and a
cancelled subscription. -/
theorem c8_once_at_most_one_witness :
    c8t.invocations ≤ 1 ∧ (1 ≤ c8t.invocations → c8t.sub.cancelled = true) :=
  c8_once_at_most_one 2 .dropOldest c8ops c8t (by decide)

/-- C9: clear_all on a bus holding one non-session subscription with a
running task empties both registries and stops the task, but the
subscription is never cancelled: its is_cancelled still reads false,
refuting the claim that every subscription is cancelled - the first loop
of clear_all only calls stop_processing, and only the session loop calls
cancel. -/
theorem c9_clear_all_nonsession_uncancelled :
    (clear_all ⟨[⟨mkSubscription 1000 .dropOldest, true⟩], [0], []⟩).subs_registry = [] ∧
    (clear_all ⟨[⟨mkSubscription 1000 .dropOldest, true⟩], [0], []⟩).session_registry = [] ∧
    (clear_all ⟨[⟨mkSubscription 1000 .dropOldest, true⟩], [0], []⟩).store
      = [⟨mkSubscription 1000 .dropOldest, false⟩] ∧
    ((clear_all ⟨[⟨mkSubscription 1000 .dropOldest, true⟩], [0], []⟩).store.map
        (fun b => is_cancelled b.sub)) = [false] := by
  refine ⟨rfl, rfl, rfl, rfl⟩

/-- C10: with capacity at least 1 the queue of a freshly constructed
subscription never exceeds the capacity under any operation sequence;
with capacity 0 the queue is unbounded: every enqueue under every
strategy admits the event and returns true, dropped_events stays 0, and
the queue length equals the number of enqueues, growing without limit. -/
theorem c10_zero_capacity_unbounded (C : Nat) (strat : BackpressureStrategy)
    (ops : List Op) (t : Trace) (es : List Event) (hC : 1 ≤ C)
    (h : run (mkTrace (mkSubscription C strat)) ops = some t) :
    t.sub.event_queue.length ≤ C ∧
    (enqueue_all (mkSubscription 0 strat) es).1 = List.replicate es.length true ∧
    (enqueue_all (mkSubscription 0 strat) es).2.event_queue = es ∧
    (enqueue_all (mkSubscription 0 strat) es).2.event_queue.length = es.length ∧
    (enqueue_all (mkSubscription 0 strat) es).2.dropped_events = 0 := by
  have hz := enqueue_all_zero es (mkSubscription 0 strat) rfl rfl
  have hsnd : (enqueue_all (mkSubscription 0 strat) es).2
      = ⟨false, 0, strat, es, 0, 0⟩ := by
    rw [hz]
    simp [mkSubscription]
  have hpos0 : 0 < (mkTrace (mkSubscription C strat)).sub.queue_size := by
    dsimp only [mkTrace, mkSubscription]
    omega
  have hlen0 : (mkTrace (mkSubscription C strat)).sub.event_queue.length
      ≤ (mkTrace (mkSubscription C strat)).sub.queue_size := by
    dsimp only [mkTrace, mkSubscription]
    simp
  have hb := run_len_bound hpos0 hlen0 h
  refine ⟨?_, ?_, ?_, ?_, ?_⟩
  · have hq : (mkTrace (mkSubscription C strat)).sub.queue_size = C := rfl
    rw [hq] at hb
    omega
  · rw [hz]
  · rw [hsnd]
  · rw [hsnd]
  · rw [hsnd]

/-- C10 witness: the capacity bound after two DropNewest enqueues at
capacity 1, and the unbounded behavior on two events at capacity 0. -/
theorem c10_zero_capacity_unbounded_witness :
    c10t.sub.event_queue.length ≤ 1 ∧
    (enqueue_all (mkSubscription 0 .dropNewest) c10es).1
      = List.replicate c10es.length true ∧
    (enqueue_all (mkSubscription 0 .dropNewest) c10es).2.event_queue = c10es ∧
    (enqueue_all (mkSubscription 0 .dropNewest) c10es).2.event_queue.length
      = c10es.length ∧
    (enqueue_all (mkSubscription 0 .dropNewest) c10es).2.dropped_events = 0 :=
  c10_zero_capacity_unbounded 1 .dropNewest c10ops c10t c10es (by decide) (by decide)

end AsyncBus
